import Mathlib

/-!
A shallow embedding of `tnine.c`, the keypad ("T9") contact search.

* A C string is the list of its characters before the terminating NUL
  (`List Char`); a well-formed C string therefore holds no NUL character.
* `stdin` is the list of characters that are still unread.
* The array `contacts` that `parse_contacts` fills is an input as well: the
  bytes it holds before the call, which `main` never initialises.
* `stdout` is the list of lines written so far, each call of
  `printf("...\n")` or `puts` writing one line.
-/

namespace Tnine

/-! ## Constants and types -/

def MAX_VALUE_LENGTH : Nat := 100

def MAX_CONTACT_COUNT : Nat := 42

/-- The terminating character of a C string. -/
def NUL : Char := Char.ofNat 0

structure contact where
  name : List Char
  phone_number : List Char
deriving DecidableEq, Repr

inductive parse_err where
  | ERR_CONTACT_LIMIT
  | ERR_TOOLONG
  | ERR_NONUMBER
deriving DecidableEq, Repr

/-- The integer value of each enumerator of `parse_err`. -/
def parse_err.toInt : parse_err → Int
  | .ERR_CONTACT_LIMIT => -1
  | .ERR_TOOLONG => -2
  | .ERR_NONUMBER => -3

/-! ## The C library functions the program calls ("C" locale) -/

def isdigit (c : Char) : Bool := decide (48 ≤ c.toNat ∧ c.toNat ≤ 57)

def isupper (c : Char) : Bool := decide (65 ≤ c.toNat ∧ c.toNat ≤ 90)

def islower (c : Char) : Bool := decide (97 ≤ c.toNat ∧ c.toNat ≤ 122)

def isalpha (c : Char) : Bool := isupper c || islower c

def toupper (c : Char) : Char := if islower c then Char.ofNat (c.toNat - 32) else c

/-! ## str_to_tnine -/

/-- The body of the loop of `str_to_tnine`: the character written to
`buffer[i]` for the character `c = string[i]`. -/
def str_to_tnine_char (c : Char) : Char :=
  if c = '+' then '0'
  else if isdigit c then c
  else if !isalpha c then 'X'
  else
    let c := if islower c then toupper c else c
    let c : Nat :=
      if c.toNat < 'P'.toNat then (c.toNat - 'A'.toNat) / 3 + 2
      else if c.toNat < 'T'.toNat then 7
      else if c.toNat < 'W'.toNat then 8
      else if c.toNat ≤ 'Z'.toNat then 9
      else c.toNat
    Char.ofNat ((c + '0'.toNat) % 256)

/-- The contents of `buffer` after `str_to_tnine(string, buffer)`: the loop
writes `buffer[i]` from `string[i]` for every `i < strlen(string)`. -/
def str_to_tnine : List Char → List Char
  | [] => []
  | c :: rest => str_to_tnine_char c :: str_to_tnine rest

/-! ### The keypad encoding as the specification words it -/

/-- The letters printed on each button of the telephone keypad. -/
def keypad_buttons : List (List Char × Char) :=
  [("ABC".toList, '2'), ("DEF".toList, '3'), ("GHI".toList, '4'),
   ("JKL".toList, '5'), ("MNO".toList, '6'), ("PQRS".toList, '7'),
   ("TUV".toList, '8'), ("WXYZ".toList, '9')]

def ascii_upper_letters : List Char := "ABCDEFGHIJKLMNOPQRSTUVWXYZ".toList

def ascii_lower_letters : List Char := "abcdefghijklmnopqrstuvwxyz".toList

def ascii_digits : List Char := "0123456789".toList

/-- The upper-case form of a letter, found by its position in the alphabet. -/
def upper_of_letter (c : Char) : Char :=
  match ascii_lower_letters.indexOf? c with
  | some i => ascii_upper_letters.getD i c
  | none => c

/-- The digit of the button that carries the (upper-case) letter. -/
def keypad_digit (c : Char) : Char :=
  match keypad_buttons.find? (fun b => b.1.contains c) with
  | some b => b.2
  | none => 'X'

/-- The reference keypad encoding of one character, following the
specification: plus becomes zero, a digit is kept, a letter becomes the
digit of its button whatever its case, anything else becomes X. -/
def keypad_reference (c : Char) : Char :=
  if c = '+' then '0'
  else if ascii_digits.contains c then c
  else if ascii_upper_letters.contains c || ascii_lower_letters.contains c then
    keypad_digit (upper_of_letter c)
  else 'X'

/-! ## replace_plus -/

/-- The index of the first occurrence of `c` in the string, `none` for the
null pointer `strchr` returns when there is no occurrence. -/
def strchr : List Char → Char → Option Nat
  | [], _ => none
  | x :: rest, c => if x = c then some 0 else (strchr rest c).map (· + 1)

/-- The contents of `buffer` after `replace_plus(string, buffer)`. -/
def replace_plus (string : List Char) : List Char :=
  let buffer := string
  match strchr buffer '+' with
  | some plus => buffer.set plus '0'
  | none => buffer

/-! ## contains_in_order -/

/-- The character `sequence[seq_count]`: at index `strlen(sequence)` it is the
terminating NUL. -/
def char_at (sequence : List Char) (seq_count : Nat) : Char :=
  sequence.getD seq_count NUL

/-- The loop of `contains_in_order` over the characters of `string` that are
left, returning the final `seq_count`. -/
def contains_in_order_loop (sequence : List Char) : List Char → Nat → Nat
  | [], seq_count => seq_count
  | c :: rest, seq_count =>
    if c = char_at sequence seq_count then contains_in_order_loop sequence rest (seq_count + 1)
    else contains_in_order_loop sequence rest seq_count

def contains_in_order (string sequence : List Char) : Bool :=
  let seq_count := contains_in_order_loop sequence string 0
  seq_count == sequence.length

/-! ## contact_matches and search_contacts -/

/-- The C library `strstr`: the part of `haystack` that starts at the first
occurrence of `needle`, `none` for the null pointer returned when `needle`
does not occur. -/
def strstr : List Char → List Char → Option (List Char)
  | [], needle => if needle.isEmpty then some [] else none
  | c :: rest, needle =>
    if needle.isPrefixOf (c :: rest) then some (c :: rest) else strstr rest needle

def contact_matches (contact : contact) (query : List Char) (nonstrict : Bool) : Bool :=
  if nonstrict then
    let str_buffer := replace_plus contact.phone_number
    if contains_in_order str_buffer query then true
    else
      let str_buffer := str_to_tnine contact.name
      if contains_in_order str_buffer query then true
      else false
  else
    let str_buffer := replace_plus contact.phone_number
    if (strstr str_buffer query).isSome then true
    else
      let str_buffer := str_to_tnine contact.name
      if (strstr str_buffer query).isSome then true
      else false

/-- The line written by `printf("%s, %s\n", name, phone_number)`. -/
def contact_line (c : contact) : List Char :=
  c.name ++ ", ".toList ++ c.phone_number

def print_all_contacts (contacts : List contact) (count : Nat) : List (List Char) :=
  (contacts.take count).map contact_line

/-- The loop of `search_contacts` over the contacts that are left: the flag
`is_found` and the lines written. -/
def search_contacts_loop (query : List Char) (nonstrict : Bool) :
    List contact → Bool → List (List Char) → Bool × List (List Char)
  | [], is_found, stdout => (is_found, stdout)
  | c :: rest, is_found, stdout =>
    if contact_matches c query nonstrict then
      search_contacts_loop query nonstrict rest true (stdout ++ [contact_line c])
    else
      search_contacts_loop query nonstrict rest is_found stdout

/-- The lines `search_contacts` writes for the first `count` entries of the
array `contacts`. -/
def search_contacts (contacts : List contact) (count : Nat) (query : List Char)
    (nonstrict : Bool) : List (List Char) :=
  let r := search_contacts_loop query nonstrict (contacts.take count) false []
  if !r.1 then r.2 ++ ["Not found".toList] else r.2

/-! ## parse_contacts -/

/-- The string a buffer holds: its characters before the first NUL. -/
def cstr (buffer : List Char) : List Char :=
  buffer.takeWhile (fun c => c != NUL)

/-- Reading of at most `n` characters from the stream, stopping after a
newline or at the end of the stream: the characters read and the stream
that is left. -/
def fgets_read : Nat → List Char → List Char × List Char
  | 0, stdin => ([], stdin)
  | _ + 1, [] => ([], [])
  | n + 1, c :: rest =>
    if c = '\n' then ([c], rest)
    else
      let r := fgets_read n rest
      (c :: r.1, r.2)

/-- The C library `fgets(buffer, size, stdin)`: `none` for the null pointer
returned at the end of the stream, otherwise the characters stored (at most
`size - 1`) and the stream that is left. -/
def fgets (size : Nat) (stdin : List Char) : Option (List Char × List Char) :=
  match stdin with
  | [] => none
  | _ :: _ => some (fgets_read (size - 1) stdin)

/-- The string after `remove_newline(string)`. An empty string is left as it
is: it only arises from a line starting with a NUL byte, where the source
reads the byte before the buffer. -/
def remove_newline (string : List Char) : List Char :=
  if string.getLast? = some '\n' then string.dropLast else string

/-- The bytes of one entry of the array `contacts`: the two `char` arrays of
the struct, of `MAX_VALUE_LENGTH + 1` bytes each. -/
structure contact_bytes where
  name : List Char
  phone_number : List Char

/-- The bytes of `dest` after `strncpy(dest, src, n)`: its first `n` bytes are
the characters of the string `src`, cut after `n` characters or followed by
NUL bytes up to `n`; the bytes of `dest` after these are not written. When
`src` has `n` characters or more, no NUL is written. -/
def strncpy (dest src : List Char) (n : Nat) : List Char :=
  src.take n ++ List.replicate (n - src.length) NUL ++ dest.drop n

/-- What `parse_contacts` leaves: the value returned and what the entries of
the array `contacts` written in full (entries `0` to `i - 1`) hold, each field
read as the characters before its first NUL. A field holding no NUL in its
`MAX_VALUE_LENGTH + 1` bytes is not a terminated string: the source reads on
into the memory after the field, and the characters listed here are only the
beginning of what it reads. -/
structure parse_result where
  ret : Int
  contacts : List contact
deriving DecidableEq, Repr

/-- The loop of `parse_contacts`. `contacts i` is the content of entry `i` of
the array when `parse_contacts` is called (any bytes: the array of `main` is
not initialised) and `stored` is what the entries written so far hold. Every
iteration reads at least one character, so a fuel larger than the length of
the stream is never used up. -/
def parse_contacts_loop (contacts : Nat → contact_bytes) (max : Nat) :
    Nat → Nat → Nat → List contact → List Char → Option parse_result
  | 0, _, _, _, _ => none
  | fuel + 1, i, contact_count, stored, stdin =>
    match fgets (MAX_VALUE_LENGTH + 1) stdin with
    | none => some ⟨contact_count, stored⟩
    | some (linebuffer, stdin) =>
      if i ≥ max then some ⟨parse_err.ERR_CONTACT_LIMIT.toInt, stored⟩
      else if (strchr (cstr linebuffer) '\n').isNone then
        some ⟨parse_err.ERR_TOOLONG.toInt, stored⟩
      else
        let name :=
          strncpy (contacts i).name (remove_newline (cstr linebuffer)) MAX_VALUE_LENGTH
        match fgets (MAX_VALUE_LENGTH + 1) stdin with
        | none => some ⟨parse_err.ERR_NONUMBER.toInt, stored⟩
        | some (linebuffer, stdin) =>
          let phone_number :=
            strncpy (contacts i).phone_number (remove_newline (cstr linebuffer))
              MAX_VALUE_LENGTH
          parse_contacts_loop contacts max fuel (i + 1) (contact_count + 1)
            (stored ++ [⟨cstr name, cstr phone_number⟩]) stdin

def parse_contacts (contacts : Nat → contact_bytes) (stdin : List Char) (max : Nat) :
    Option parse_result :=
  parse_contacts_loop contacts max (stdin.length + 1) 0 0 [] stdin

/-- An array of contacts that is not initialised: the bytes of every name
happen to be NUL and the bytes of every phone number to be question marks. -/
def stale_contacts : Nat → contact_bytes :=
  fun _ => ⟨List.replicate (MAX_VALUE_LENGTH + 1) NUL, List.replicate (MAX_VALUE_LENGTH + 1) '?'⟩

/-- An array of contacts whose bytes all happen to be NUL. -/
def zeroed_contacts : Nat → contact_bytes :=
  fun _ => ⟨List.replicate (MAX_VALUE_LENGTH + 1) NUL, List.replicate (MAX_VALUE_LENGTH + 1) NUL⟩

/-! ## main -/

def OK : Nat := 0

def ARGUMENT_ERROR : Nat := 1

def PARSE_ERROR : Nat := 2

/-- The text `print_parse_err` writes to stderr. -/
def print_parse_err (error : Int) : List Char :=
  let error_strings : List (List Char) :=
    ["Contact limit reached".toList, "Input line is too long".toList,
     "Contact is missing a number".toList]
  let index := Int.tdiv error (-1) - 1
  "Error: ".toList ++ error_strings.getD index.toNat []

def validate_query : List Char → Bool
  | [] => true
  | c :: rest => if !isdigit c then false else validate_query rest

/-- What a run of the program leaves: the lines written to stdout, the text
written to stderr and the exit status. -/
structure run_result where
  stdout : List (List Char)
  stderr : List Char
  status : Nat
deriving DecidableEq, Repr

/-- The program run on the arguments `argv` (the program name first, so that
`argc` is `argv.length`) and the input stream `stdin`; `contacts` is the
content its array `contacts`, which is not initialised, happens to have. -/
def main (contacts : Nat → contact_bytes) (argv : List (List Char)) (stdin : List Char) :
    Option run_result :=
  let argc := argv.length
  if argc > 3 || (argc == 3 && argv.getD 1 [] != "-s".toList) then
    some ⟨[], "Invalid arguments, exiting.\nUsage: ./tnine [-s] [SEARCH QUERY]".toList,
      ARGUMENT_ERROR⟩
  else
    let nonstrict_search := argc == 3
    let query := if argc == 3 then argv.getD 2 [] else argv.getD 1 []
    if argc > 1 && !validate_query query then
      some ⟨[], "Invalid query (must be a number)".toList, ARGUMENT_ERROR⟩
    else
      match parse_contacts contacts stdin MAX_CONTACT_COUNT with
      | none => none
      | some r =>
        let contact_count := r.ret
        if contact_count < 0 then some ⟨[], print_parse_err contact_count, PARSE_ERROR⟩
        else if argc == 1 then
          some ⟨print_all_contacts r.contacts contact_count.toNat, [], OK⟩
        else
          some ⟨search_contacts r.contacts contact_count.toNat query nonstrict_search, [], OK⟩

/-! ## Input streams of well-formed lines -/

/-- A field that fits a line of the input: it holds no newline and no NUL and
is shorter than the 100 characters `fgets` reads at most. -/
def valid_field (f : List Char) : Prop :=
  '\n' ∉ f ∧ NUL ∉ f ∧ f.length < MAX_VALUE_LENGTH

instance (f : List Char) : Decidable (valid_field f) := by
  unfold valid_field
  infer_instance

def valid_pair (c : contact) : Prop :=
  valid_field c.name ∧ valid_field c.phone_number

instance (c : contact) : Decidable (valid_pair c) := by
  unfold valid_pair
  infer_instance

/-- The stream formed by writing the name and the number of each pair, each
followed by a newline. -/
def stream_of_pairs : List contact → List Char
  | [] => []
  | c :: rest => c.name ++ '\n' :: (c.phone_number ++ '\n' :: stream_of_pairs rest)

/-- The upper-case form of a string as the specification words it: every
letter replaced by its upper-case form. -/
def uppercase (S : List Char) : List Char :=
  S.map upper_of_letter

/-- An ASCII letter, of either case. -/
def is_ascii_letter (c : Char) : Bool :=
  ascii_upper_letters.contains c || ascii_lower_letters.contains c

/-! ## Theorems -/

theorem str_to_tnine_length (s : List Char) : (str_to_tnine s).length = s.length := by
  induction s with
  | nil => rfl
  | cons c rest ih => simp [str_to_tnine, ih]

theorem str_to_tnine_getElem (s : List Char) (i : Nat) (h : i < s.length) :
    (str_to_tnine s)[i]? = some (str_to_tnine_char s[i]) := by
  induction s generalizing i with
  | nil => simp at h
  | cons c rest ih =>
    cases i with
    | zero => simp [str_to_tnine]
    | succ j =>
      simp only [List.length_cons, Nat.add_lt_add_iff_right] at h
      simp [str_to_tnine, ih j h]

set_option maxRecDepth 100000 in
theorem str_to_tnine_char_ascii_table :
    ∀ n : Fin 128, str_to_tnine_char (Char.ofNat n.val) = keypad_reference (Char.ofNat n.val) := by
  decide

theorem char_eq_ofNat_fin (c : Char) (h : c.toNat < 128) :
    ∃ n : Fin 128, c = Char.ofNat n.val :=
  ⟨⟨c.toNat, h⟩, (Char.ofNat_toNat c).symm⟩

theorem str_to_tnine_char_eq_reference (c : Char) (h : c.toNat < 128) :
    str_to_tnine_char c = keypad_reference c := by
  obtain ⟨n, rfl⟩ := char_eq_ofNat_fin c h
  exact str_to_tnine_char_ascii_table n

/-- C1: for every ASCII string `S`, `str_to_tnine` writes one character for
each character of `S`, and the character at every position `i` is the
reference keypad encoding of `S[i]`: zero for a plus, the digit itself for a
digit, the digit of the keypad button for a letter of either case, and X for
anything else. -/
theorem str_to_tnine_eq_keypad_reference (S : List Char) (hS : ∀ c ∈ S, c.toNat < 128) :
    (str_to_tnine S).length = S.length ∧
    ∀ (i : Nat) (h : i < S.length),
      (str_to_tnine S)[i]? = some (keypad_reference S[i]) := by
  refine ⟨str_to_tnine_length S, fun i h => ?_⟩
  rw [str_to_tnine_getElem S i h, str_to_tnine_char_eq_reference]
  exact hS _ (List.getElem_mem _)

theorem str_to_tnine_eq_keypad_reference_witness :
    (str_to_tnine "Q+7z ".toList).length = "Q+7z ".toList.length ∧
    ∀ (i : Nat) (h : i < "Q+7z ".toList.length),
      (str_to_tnine "Q+7z ".toList)[i]? = some (keypad_reference ("Q+7z ".toList)[i]) :=
  str_to_tnine_eq_keypad_reference "Q+7z ".toList (by decide)

theorem char_at_of_lt (Q : List Char) (k : Nat) (h : k < Q.length) :
    Q.drop k = char_at Q k :: Q.drop (k + 1) := by
  have h1 : char_at Q k = Q[k] := by
    simp [char_at, List.getD, List.getElem?_eq_getElem h]
  rw [h1]
  exact List.drop_eq_getElem_cons h

theorem char_at_of_ge (Q : List Char) (k : Nat) (h : Q.length ≤ k) : char_at Q k = NUL := by
  simp [char_at, List.getD, List.getElem?_eq_none h]

theorem sublist_cons_of_ne {a b : Char} {l₁ l₂ : List Char} (h : a ≠ b) :
    (a :: l₁).Sublist (b :: l₂) ↔ (a :: l₁).Sublist l₂ := by
  constructor
  · intro hs
    cases hs with
    | cons _ hs => exact hs
    | cons₂ _ hs => exact absurd rfl h
  · intro hs
    exact List.Sublist.cons _ hs

theorem contains_in_order_loop_spec (Q : List Char) :
    ∀ (F : List Char) (k : Nat), NUL ∉ F → k ≤ Q.length →
      (contains_in_order_loop Q F k = Q.length ↔ (Q.drop k).Sublist F) := by
  intro F
  induction F with
  | nil =>
    intro k _ hk
    simp only [contains_in_order_loop, List.sublist_nil, List.drop_eq_nil_iff]
    omega
  | cons c rest ih =>
    intro k hF hk
    have hc : c ≠ NUL := fun h => hF (h ▸ List.mem_cons_self _ _)
    have hrest : NUL ∉ rest := fun h => hF (List.mem_cons_of_mem _ h)
    rcases Nat.lt_or_ge k Q.length with hlt | hge
    · rw [char_at_of_lt Q k hlt]
      by_cases heq : c = char_at Q k
      · simp only [contains_in_order_loop, if_pos heq]
        rw [ih (k + 1) hrest hlt, ← heq, List.cons_sublist_cons]
      · simp only [contains_in_order_loop, if_neg heq]
        rw [ih k hrest hk, char_at_of_lt Q k hlt, sublist_cons_of_ne (Ne.symm heq)]
    · have hnul := char_at_of_ge Q k hge
      have hne : ¬ c = char_at Q k := by rw [hnul]; exact hc
      simp only [contains_in_order_loop, if_neg hne]
      rw [ih k hrest hk, List.drop_eq_nil_of_le hge]
      simp

/-- C2: for every field `F` and query `Q` holding no NUL,
`contains_in_order(F, Q)` is true exactly when `Q` is a subsequence of `F`
(its characters occur in `F` in order, not necessarily next to each other);
in particular a query whose characters all occur in `F` but not in order is
rejected. -/
theorem contains_in_order_iff_sublist (F Q : List Char) (hF : NUL ∉ F) (_hQ : NUL ∉ Q) :
    (contains_in_order F Q = true ↔ Q.Sublist F) ∧
    ((∀ c ∈ Q, c ∈ F) → ¬ Q.Sublist F → contains_in_order F Q = false) := by
  have key : contains_in_order F Q = true ↔ Q.Sublist F := by
    have h := contains_in_order_loop_spec Q F 0 hF (Nat.zero_le _)
    simpa [contains_in_order] using h
  refine ⟨key, fun _ hns => ?_⟩
  cases hb : contains_in_order F Q with
  | false => rfl
  | true => exact absurd (key.mp hb) hns

theorem contains_in_order_iff_sublist_witness :
    NUL ∉ "4646".toList ∧ NUL ∉ "664".toList ∧
    (contains_in_order "4646".toList "664".toList = true ↔
      "664".toList.Sublist "4646".toList) ∧
    contains_in_order "4646".toList "664".toList = false :=
  ⟨by decide, by decide,
    (contains_in_order_iff_sublist "4646".toList "664".toList (by decide) (by decide)).1,
    (contains_in_order_iff_sublist "4646".toList "664".toList (by decide) (by decide)).2
      (by decide) (by decide)⟩

theorem strstr_isSome_iff (haystack needle : List Char) :
    (strstr haystack needle).isSome = true ↔ needle <:+: haystack := by
  induction haystack with
  | nil =>
    cases needle with
    | nil => simp [strstr]
    | cons a l => simp [strstr]
  | cons c rest ih =>
    rw [List.infix_cons_iff, ← ih, ← List.isPrefixOf_iff_prefix]
    by_cases hp : needle.isPrefixOf (c :: rest) = true
    · simp [strstr, hp]
    · simp [strstr, hp]

theorem replace_plus_no_nul (s : List Char) (h : NUL ∉ s) : NUL ∉ replace_plus s := by
  simp only [replace_plus]
  cases strchr s '+' with
  | none => exact h
  | some plus =>
    intro hm
    simp only at hm
    rcases List.mem_or_eq_of_mem_set hm with h1 | h1
    · exact h h1
    · exact absurd h1 (by decide)

theorem str_to_tnine_char_ne_nul_ascii :
    ∀ n : Fin 128, str_to_tnine_char (Char.ofNat n.val) ≠ NUL := by
  decide

theorem str_to_tnine_char_ne_nul (c : Char) : str_to_tnine_char c ≠ NUL := by
  by_cases h : c.toNat < 128
  · obtain ⟨n, rfl⟩ := char_eq_ofNat_fin c h
    exact str_to_tnine_char_ne_nul_ascii n
  · have h1 : c ≠ '+' := by
      intro e; rw [e] at h; exact h (by decide)
    have h2 : isdigit c = false := by
      simp only [isdigit, decide_eq_false_iff_not]; omega
    have h3 : isalpha c = false := by
      simp only [isalpha, isupper, islower, Bool.or_eq_false_iff, decide_eq_false_iff_not]
      omega
    simp only [str_to_tnine_char, if_neg h1, h2, h3, Bool.false_eq_true, if_false,
      Bool.not_false, if_true]
    decide

theorem str_to_tnine_no_nul (s : List Char) : NUL ∉ str_to_tnine s := by
  induction s with
  | nil => simp [str_to_tnine]
  | cons c rest ih =>
    simp only [str_to_tnine, List.mem_cons, not_or]
    exact ⟨fun e => str_to_tnine_char_ne_nul c e.symm, ih⟩

/-- C3: for every contact (whose phone number is a well-formed string, holding
no NUL), query and policy, `contact_matches` returns true exactly when the
predicate of the policy holds for the normalized phone number
(`replace_plus` of `phone_number`) or for the encoded name (`str_to_tnine` of
`name`): under the strict policy the query is a contiguous substring, under
the non-strict policy it is an in-order subsequence. -/
theorem contact_matches_iff (c : contact) (query : List Char) (nonstrict : Bool)
    (hp : NUL ∉ c.phone_number) :
    contact_matches c query nonstrict = true ↔
      if nonstrict = true then
        query.Sublist (replace_plus c.phone_number) ∨ query.Sublist (str_to_tnine c.name)
      else
        query <:+: replace_plus c.phone_number ∨ query <:+: str_to_tnine c.name := by
  have hq : ∀ F, NUL ∉ F → (contains_in_order F query = true ↔ query.Sublist F) := by
    intro F hF
    have h := contains_in_order_loop_spec query F 0 hF (Nat.zero_le _)
    simpa [contains_in_order] using h
  cases nonstrict with
  | true =>
    simp only [contact_matches, if_true]
    rw [← hq _ (replace_plus_no_nul _ hp), ← hq _ (str_to_tnine_no_nul _)]
    cases contains_in_order (replace_plus c.phone_number) query <;>
      cases contains_in_order (str_to_tnine c.name) query <;> simp
  | false =>
    simp only [contact_matches, Bool.false_eq_true, if_false]
    rw [← strstr_isSome_iff, ← strstr_isSome_iff]
    cases (strstr (replace_plus c.phone_number) query).isSome <;>
      cases (strstr (str_to_tnine c.name) query).isSome <;> simp

theorem contact_matches_iff_witness :
    NUL ∉ "+199000".toList ∧
    (contact_matches ⟨"Bob".toList, "+199000".toList⟩ "262".toList false = true ↔
      ("262".toList <:+: replace_plus "+199000".toList ∨
        "262".toList <:+: str_to_tnine "Bob".toList)) :=
  ⟨by decide, contact_matches_iff ⟨"Bob".toList, "+199000".toList⟩ "262".toList false (by decide)⟩

theorem search_contacts_loop_eq (query : List Char) (nonstrict : Bool) :
    ∀ (l : List contact) (is_found : Bool) (stdout : List (List Char)),
      search_contacts_loop query nonstrict l is_found stdout =
        (is_found || !(l.filter (fun c => contact_matches c query nonstrict)).isEmpty,
         stdout ++ (l.filter (fun c => contact_matches c query nonstrict)).map contact_line) := by
  intro l
  induction l with
  | nil => intro f out; simp [search_contacts_loop]
  | cons c rest ih =>
    intro f out
    by_cases hm : contact_matches c query nonstrict = true
    · simp [search_contacts_loop, hm, ih]
    · simp [search_contacts_loop, hm, ih]

theorem contact_line_ne_not_found (c : contact) : contact_line c ≠ "Not found".toList := by
  intro h
  have hmem : ',' ∈ contact_line c := by simp [contact_line]
  rw [h] at hmem
  exact absurd hmem (by decide)

theorem search_contacts_eq (contacts : List contact) (count : Nat) (query : List Char)
    (nonstrict : Bool) :
    search_contacts contacts count query nonstrict =
      if ((contacts.take count).filter (fun c => contact_matches c query nonstrict)).isEmpty
      then ["Not found".toList]
      else ((contacts.take count).filter
        (fun c => contact_matches c query nonstrict)).map contact_line := by
  simp only [search_contacts, search_contacts_loop_eq]
  generalize List.filter _ _ = m
  cases m <;> simp

/-- C4: for every store (the first `count` entries of `contacts`), query and
policy, `search_contacts` writes exactly the lines `name, phone_number` of
the contacts for which `contact_matches` is true, in store order and once
each, when there is such a contact, and the single line `Not found` when
there is none (in particular for the empty store); the line `Not found` is
written if and only if no contact matches. -/
theorem search_contacts_lines (contacts : List contact) (count : Nat) (query : List Char)
    (nonstrict : Bool) (_hcount : count ≤ contacts.length) :
    let matching := (contacts.take count).filter (fun c => contact_matches c query nonstrict)
    (matching ≠ [] →
      search_contacts contacts count query nonstrict =
        matching.map (fun c => c.name ++ ", ".toList ++ c.phone_number)) ∧
    (matching = [] →
      search_contacts contacts count query nonstrict = ["Not found".toList]) ∧
    ("Not found".toList ∈ search_contacts contacts count query nonstrict ↔ matching = []) := by
  intro matching
  have hout : search_contacts contacts count query nonstrict =
      if matching.isEmpty then ["Not found".toList] else matching.map contact_line :=
    search_contacts_eq contacts count query nonstrict
  refine ⟨fun hne => ?_, fun he => ?_, ?_⟩
  · rw [hout]
    cases hm : matching with
    | nil => exact absurd hm hne
    | cons a l => rfl
  · rw [hout, he]; rfl
  · rw [hout]
    cases hm : matching with
    | nil => simp
    | cons a l =>
      simp only [List.isEmpty_cons, Bool.false_eq_true, if_false, List.mem_map]
      constructor
      · rintro ⟨c, _, hc⟩
        exact absurd hc (contact_line_ne_not_found c)
      · intro h; exact absurd h (by simp)

theorem search_contacts_lines_witness :
    search_contacts [⟨"Ann".toList, "+123456".toList⟩, ⟨"Bob".toList, "+199000".toList⟩,
        ⟨"Col".toList, "+226611".toList⟩] 3 "26".toList true =
      ["Ann, +123456".toList, "Bob, +199000".toList, "Col, +226611".toList] ∧
    search_contacts [⟨"Ann".toList, "+123456".toList⟩, ⟨"Bob".toList, "+199000".toList⟩,
        ⟨"Col".toList, "+226611".toList⟩] 3 "262".toList false = ["Bob, +199000".toList] :=
  ⟨(search_contacts_lines [⟨"Ann".toList, "+123456".toList⟩, ⟨"Bob".toList, "+199000".toList⟩,
      ⟨"Col".toList, "+226611".toList⟩] 3 "26".toList true (by decide)).1 (by decide),
   (search_contacts_lines [⟨"Ann".toList, "+123456".toList⟩, ⟨"Bob".toList, "+199000".toList⟩,
      ⟨"Col".toList, "+226611".toList⟩] 3 "262".toList false (by decide)).1 (by decide)⟩

/-! ### Reading one well-formed line -/

theorem fgets_read_line (f rest : List Char) (hnl : '\n' ∉ f) :
    ∀ n, f.length < n → fgets_read n (f ++ '\n' :: rest) = (f ++ ['\n'], rest) := by
  induction f with
  | nil =>
    intro n hn
    cases n with
    | zero => omega
    | succ m => simp [fgets_read]
  | cons c f ih =>
    intro n hn
    cases n with
    | zero => omega
    | succ m =>
      have hc : c ≠ '\n' := fun e => hnl (e ▸ List.mem_cons_self _ _)
      have hf : '\n' ∉ f := fun h => hnl (List.mem_cons_of_mem _ h)
      simp only [List.length_cons, Nat.add_lt_add_iff_right] at hn
      simp [fgets_read, hc, ih hf m hn]

theorem fgets_line (f rest : List Char) (hnl : '\n' ∉ f) (hlen : f.length < MAX_VALUE_LENGTH) :
    fgets (MAX_VALUE_LENGTH + 1) (f ++ '\n' :: rest) = some (f ++ ['\n'], rest) := by
  have h := fgets_read_line f rest hnl MAX_VALUE_LENGTH hlen
  cases f with
  | nil => simpa [fgets] using h
  | cons c f => simpa [fgets] using h

theorem cstr_eq_self (s : List Char) (h : NUL ∉ s) : cstr s = s := by
  induction s with
  | nil => rfl
  | cons c s ih =>
    have hc : c ≠ NUL := fun e => h (e ▸ List.mem_cons_self _ _)
    have hs : NUL ∉ s := fun hm => h (List.mem_cons_of_mem _ hm)
    have ih2 := ih hs
    have hb : (c != NUL) = true := by simpa using hc
    simp only [cstr] at ih2 ⊢
    rw [List.takeWhile_cons, hb, if_pos rfl, ih2]

theorem strchr_isNone_iff (s : List Char) (c : Char) : (strchr s c).isNone = true ↔ c ∉ s := by
  induction s with
  | nil => simp [strchr]
  | cons x s ih =>
    by_cases hx : x = c
    · simp [strchr, hx]
    · have hx2 : ¬ c = x := fun e => hx e.symm
      simp [strchr, hx, hx2, ← ih]

theorem remove_newline_append (f : List Char) : remove_newline (f ++ ['\n']) = f := by
  simp [remove_newline]

theorem remove_newline_of_not_mem (s : List Char) (h : '\n' ∉ s) : remove_newline s = s := by
  unfold remove_newline
  rw [if_neg]
  intro hl
  exact h (List.mem_of_getLast?_eq_some hl)

theorem cstr_append_nul (f rest : List Char) (h : NUL ∉ f) : cstr (f ++ NUL :: rest) = f := by
  induction f with
  | nil => simp [cstr, List.takeWhile]
  | cons c f ih =>
    have hc : c ≠ NUL := fun e => h (e ▸ List.mem_cons_self _ _)
    have hf : NUL ∉ f := fun hm => h (List.mem_cons_of_mem _ hm)
    have hb : (c != NUL) = true := by simpa using hc
    have ih2 := ih hf
    simp only [cstr, List.cons_append] at ih2 ⊢
    rw [List.takeWhile_cons, hb, if_pos rfl, ih2]

/-- A string shorter than `n` is copied with its terminating NUL: the
destination then holds that string, whatever it held before. -/
theorem cstr_strncpy (dest f : List Char) (n : Nat) (hnul : NUL ∉ f) (hlen : f.length < n) :
    cstr (strncpy dest f n) = f := by
  obtain ⟨k, hk⟩ : ∃ k, n - f.length = k + 1 := ⟨n - f.length - 1, by omega⟩
  simp only [strncpy, List.take_of_length_le (Nat.le_of_lt hlen), hk, List.replicate_succ,
    List.append_assoc, List.cons_append]
  exact cstr_append_nul f _ hnul

/-- The string stored for a well-formed line, whatever the field held before. -/
theorem stored_line (dest f : List Char) (hf : valid_field f) :
    (strchr (cstr (f ++ ['\n'])) '\n').isNone = false ∧
    cstr (strncpy dest (remove_newline (cstr (f ++ ['\n']))) MAX_VALUE_LENGTH) = f := by
  obtain ⟨_, hnul, hlen⟩ := hf
  have hn : NUL ∉ f ++ ['\n'] := by
    simp only [List.mem_append, List.mem_singleton, not_or]
    exact ⟨hnul, by decide⟩
  rw [cstr_eq_self _ hn, remove_newline_append]
  constructor
  · rw [Bool.eq_false_iff]
    intro h
    exact (strchr_isNone_iff _ _).mp h (by simp)
  · exact cstr_strncpy dest f MAX_VALUE_LENGTH hnul hlen

/-! ### The loop of `parse_contacts` over well-formed pairs -/

theorem stream_of_pairs_append (a b : List contact) :
    stream_of_pairs (a ++ b) = stream_of_pairs a ++ stream_of_pairs b := by
  induction a with
  | nil => rfl
  | cons c a ih => simp [stream_of_pairs, ih]

theorem stream_of_pairs_length (ps : List contact) :
    2 * ps.length ≤ (stream_of_pairs ps).length := by
  induction ps with
  | nil => simp
  | cons c ps ih => simp [stream_of_pairs]; omega

/-- One iteration on a well-formed pair stores the pair and goes on with the
rest of the stream. -/
theorem parse_contacts_loop_pair (contacts : Nat → contact_bytes)
    (max fuel i contact_count : Nat) (stored : List contact)
    (c : contact) (hc : valid_pair c) (rest : List Char) (hi : i < max) :
    parse_contacts_loop contacts max (fuel + 1) i contact_count stored
        (c.name ++ '\n' :: (c.phone_number ++ '\n' :: rest)) =
      parse_contacts_loop contacts max fuel (i + 1) (contact_count + 1) (stored ++ [c])
        rest := by
  obtain ⟨hname, hphone⟩ := hc
  have hnot : ¬ i ≥ max := Nat.not_le.mpr hi
  simp only [parse_contacts_loop, fgets_line c.name _ hname.1 hname.2.2, if_neg hnot,
    (stored_line (contacts i).name c.name hname).1,
    (stored_line (contacts i).name c.name hname).2,
    fgets_line c.phone_number _ hphone.1 hphone.2.2,
    (stored_line (contacts i).phone_number c.phone_number hphone).2,
    Bool.false_eq_true, if_false]

theorem parse_contacts_loop_pairs (contacts : Nat → contact_bytes) (max : Nat)
    (tail : List Char) :
    ∀ (ps : List contact) (fuel i contact_count : Nat) (stored : List contact),
      (∀ c ∈ ps, valid_pair c) → i + ps.length ≤ max →
      parse_contacts_loop contacts max (fuel + ps.length) i contact_count stored
          (stream_of_pairs ps ++ tail) =
        parse_contacts_loop contacts max fuel (i + ps.length) (contact_count + ps.length)
          (stored ++ ps) tail := by
  intro ps
  induction ps with
  | nil => intro fuel i cc stored _ _; simp [stream_of_pairs]
  | cons c ps ih =>
    intro fuel i cc stored hv hi
    simp only [List.length_cons] at hi ⊢
    have hc : valid_pair c := hv c (List.mem_cons_self _ _)
    have hps : ∀ d ∈ ps, valid_pair d := fun d hd => hv d (List.mem_cons_of_mem _ hd)
    have e1 : fuel + (ps.length + 1) = (fuel + ps.length) + 1 := by omega
    have e2 : stream_of_pairs (c :: ps) ++ tail =
        c.name ++ '\n' :: (c.phone_number ++ '\n' :: (stream_of_pairs ps ++ tail)) := by
      simp [stream_of_pairs]
    rw [e1, e2, parse_contacts_loop_pair contacts max _ i cc stored c hc _ (by omega),
      ih (fuel) (i + 1) (cc + 1) (stored ++ [c]) hps (by omega)]
    have e3 : i + 1 + ps.length = i + (ps.length + 1) := by omega
    have e4 : cc + 1 + ps.length = cc + (ps.length + 1) := by omega
    rw [e3, e4, List.append_assoc, List.singleton_append]

/-- The whole of `parse_contacts` on well-formed pairs followed by `tail`: what
is left is one run of the loop on `tail`, with some fuel left. -/
theorem parse_contacts_pairs (contacts : Nat → contact_bytes) (max : Nat) (ps : List contact)
    (tail : List Char) (hv : ∀ c ∈ ps, valid_pair c) (hlen : ps.length ≤ max) :
    ∃ fuel, parse_contacts contacts (stream_of_pairs ps ++ tail) max =
      parse_contacts_loop contacts max (fuel + 1) ps.length ps.length ps tail := by
  have hl := stream_of_pairs_length ps
  refine ⟨(stream_of_pairs ps ++ tail).length - ps.length, ?_⟩
  have e : (stream_of_pairs ps ++ tail).length + 1 =
      ((stream_of_pairs ps ++ tail).length - ps.length + 1) + ps.length := by
    simp only [List.length_append]; omega
  unfold parse_contacts
  rw [e, parse_contacts_loop_pairs contacts max tail ps _ 0 0 [] hv (by omega)]
  simp

/-- C5: loader round trip. For every list of at most `max` pairs whose fields
are well-formed strings without a newline and shorter than 100 characters,
`parse_contacts` applied to the stream that writes each name and each number
followed by a newline returns the number of pairs and stores exactly those
pairs, in input order, with the newlines stripped; on the empty stream it
returns 0. This holds whatever the array `contacts` held before. -/
theorem parse_contacts_round_trip (contacts : Nat → contact_bytes) (max : Nat)
    (ps : List contact) (hlen : ps.length ≤ max) (hv : ∀ c ∈ ps, valid_pair c) :
    parse_contacts contacts (stream_of_pairs ps) max = some ⟨(ps.length : Int), ps⟩ ∧
    parse_contacts contacts [] max = some ⟨0, []⟩ := by
  constructor
  · obtain ⟨fuel, h⟩ := parse_contacts_pairs contacts max ps [] hv hlen
    rw [List.append_nil] at h
    rw [h]
    simp [parse_contacts_loop, fgets]
  · rfl

theorem parse_contacts_round_trip_witness :
    parse_contacts stale_contacts "Ann\n+123456\nBob\n+199000\n".toList 2 =
      some ⟨2, [⟨"Ann".toList, "+123456".toList⟩, ⟨"Bob".toList, "+199000".toList⟩]⟩ :=
  (parse_contacts_round_trip stale_contacts 2
    [⟨"Ann".toList, "+123456".toList⟩, ⟨"Bob".toList, "+199000".toList⟩]
    (by decide) (by decide)).1

theorem stream_of_pairs_ne_nil (ps : List contact) (h : ps ≠ []) : stream_of_pairs ps ≠ [] := by
  cases ps with
  | nil => exact absurd rfl h
  | cons c ps =>
    cases hn : c.name with
    | nil => simp [stream_of_pairs, hn]
    | cons a l => simp [stream_of_pairs, hn]

/-- With `max` contacts stored, any further input makes the loop fail with
`ERR_CONTACT_LIMIT`. -/
theorem parse_contacts_loop_limit (contacts : Nat → contact_bytes)
    (max fuel i contact_count : Nat) (stored : List contact)
    (stdin : List Char) (hs : stdin ≠ []) (hi : max ≤ i) :
    parse_contacts_loop contacts max (fuel + 1) i contact_count stored stdin =
      some ⟨parse_err.ERR_CONTACT_LIMIT.toInt, stored⟩ := by
  cases stdin with
  | nil => exact absurd rfl hs
  | cons a l => simp [parse_contacts_loop, fgets, hi]

theorem parse_contacts_limit (contacts : Nat → contact_bytes) (max : Nat) (ps : List contact)
    (hlen : max < ps.length) (hv : ∀ c ∈ ps, valid_pair c) :
    parse_contacts contacts (stream_of_pairs ps) max =
      some ⟨parse_err.ERR_CONTACT_LIMIT.toInt, ps.take max⟩ := by
  have hsplit : stream_of_pairs ps =
      stream_of_pairs (ps.take max) ++ stream_of_pairs (ps.drop max) := by
    rw [← stream_of_pairs_append, List.take_append_drop]
  have hv1 : ∀ c ∈ ps.take max, valid_pair c := fun c hc => hv c (List.mem_of_mem_take hc)
  have hl1 : (ps.take max).length = max := by
    rw [List.length_take]; omega
  have hne : stream_of_pairs (ps.drop max) ≠ [] := by
    apply stream_of_pairs_ne_nil
    intro h
    have := congrArg List.length h
    simp at this
    omega
  obtain ⟨fuel, h⟩ := parse_contacts_pairs contacts max (ps.take max)
    (stream_of_pairs (ps.drop max)) hv1 (by omega)
  rw [hsplit, h, parse_contacts_loop_limit _ _ _ _ _ _ _ hne (by omega)]

/-- C6: for every stream of more than `max` well-formed newline-terminated
pairs, `parse_contacts` fails with `ERR_CONTACT_LIMIT`: the value returned is
negative, so not a contact count, and the program (where `max` is
`MAX_CONTACT_COUNT`) then writes no contact to its output, whatever its
arguments. This holds whatever the array `contacts` held before. -/
theorem parse_contacts_contact_limit (contacts : Nat → contact_bytes) (max : Nat)
    (ps : List contact) (hlen : max < ps.length) (hv : ∀ c ∈ ps, valid_pair c) :
    (∃ r, parse_contacts contacts (stream_of_pairs ps) max = some r ∧
      r.ret = parse_err.ERR_CONTACT_LIMIT.toInt ∧ r.ret < 0) ∧
    (max = MAX_CONTACT_COUNT →
      ∀ argv, ∃ out, main contacts argv (stream_of_pairs ps) = some out ∧
        out.stdout = []) := by
  have h := parse_contacts_limit contacts max ps hlen hv
  have hneg : parse_err.ERR_CONTACT_LIMIT.toInt < 0 := by decide
  refine ⟨⟨_, h, rfl, hneg⟩, ?_⟩
  intro hmax argv
  rw [hmax] at h
  unfold main
  simp only [h, hneg, if_true]
  split_ifs <;> exact ⟨_, rfl, rfl⟩

set_option maxRecDepth 100000 in
theorem parse_contacts_contact_limit_witness :
    (∃ r, parse_contacts stale_contacts "Ann\n+123456\nBob\n+199000\n".toList 1 = some r ∧
      r.ret = -1 ∧ r.ret < 0) ∧
    (∃ out, main stale_contacts ["tnine".toList, "266".toList]
      (stream_of_pairs (List.replicate 43 ⟨"Ann".toList, "+123456".toList⟩)) = some out ∧
      out.stdout = []) :=
  ⟨(parse_contacts_contact_limit stale_contacts 1
      [⟨"Ann".toList, "+123456".toList⟩, ⟨"Bob".toList, "+199000".toList⟩]
      (by decide) (by decide)).1,
   (parse_contacts_contact_limit stale_contacts 42
      (List.replicate 43 ⟨"Ann".toList, "+123456".toList⟩)
      (by decide) (by decide)).2 rfl ["tnine".toList, "266".toList]⟩

/-- C8: for every stream of fewer than `max` well-formed newline-terminated
pairs followed by one well-formed newline-terminated name line and then the
end of the stream, `parse_contacts` fails with `ERR_NONUMBER`, whatever the
array `contacts` held before. -/
theorem parse_contacts_missing_number (contacts : Nat → contact_bytes) (max : Nat)
    (ps : List contact) (name : List Char)
    (hlen : ps.length < max) (hv : ∀ c ∈ ps, valid_pair c) (hname : valid_field name) :
    ∃ r, parse_contacts contacts (stream_of_pairs ps ++ (name ++ ['\n'])) max = some r ∧
      r.ret = parse_err.ERR_NONUMBER.toInt := by
  obtain ⟨fuel, h⟩ := parse_contacts_pairs contacts max ps (name ++ ['\n']) hv
    (Nat.le_of_lt hlen)
  have hnot : ¬ ps.length ≥ max := Nat.not_le.mpr hlen
  refine ⟨⟨parse_err.ERR_NONUMBER.toInt, ps⟩, ?_, rfl⟩
  rw [h]
  have hend : fgets (MAX_VALUE_LENGTH + 1) [] = none := rfl
  simp only [parse_contacts_loop, fgets_line name [] hname.1 hname.2.2, if_neg hnot,
    (stored_line [] name hname).1, hend, Bool.false_eq_true, if_false]

theorem parse_contacts_missing_number_witness :
    ∃ r, parse_contacts stale_contacts "Ann\n+123456\nBob\n".toList 42 = some r ∧
      r.ret = -3 :=
  parse_contacts_missing_number stale_contacts 42 [⟨"Ann".toList, "+123456".toList⟩] "Bob".toList
    (by decide) (by decide) (by decide)

set_option maxRecDepth 100000 in
/-- C7: on the stream holding the name line `A` and then a number line of 101
characters before its newline, `parse_contacts` does not fail with
`ERR_TOOLONG`: it stores the first 100 characters as the number, reads the
rest of the line as the next name and fails with `ERR_NONUMBER`, whatever the
array `contacts` held before; the stored contact is shown for an array whose
bytes were all NUL. -/
theorem parse_contacts_long_number_line :
    (∀ contacts : Nat → contact_bytes,
      ∃ r, parse_contacts contacts
          ("A\n".toList ++ List.replicate 101 '1' ++ "\n".toList) MAX_CONTACT_COUNT = some r ∧
        r.ret = parse_err.ERR_NONUMBER.toInt) ∧
    parse_contacts zeroed_contacts
        ("A\n".toList ++ List.replicate 101 '1' ++ "\n".toList) MAX_CONTACT_COUNT =
      some ⟨parse_err.ERR_NONUMBER.toInt, [⟨"A".toList, List.replicate 100 '1'⟩]⟩ :=
  ⟨fun _ => ⟨_, rfl, rfl⟩, by decide⟩

set_option maxRecDepth 100000 in
/-- C9: on the stream holding a name of exactly 100 characters followed by its
newline and then a number line, `parse_contacts` fails with `ERR_TOOLONG`
and stores nothing, whatever the array `contacts` held before. -/
theorem parse_contacts_name_of_100 :
    ∀ contacts : Nat → contact_bytes,
      parse_contacts contacts (List.replicate 100 'a' ++ "\n1\n".toList) MAX_CONTACT_COUNT =
        some ⟨parse_err.ERR_TOOLONG.toInt, []⟩ :=
  fun _ => rfl

set_option maxRecDepth 100000 in
/-- A number of exactly 100 characters followed by its newline: the 100
characters are stored, the newline left in the stream is read as an empty
next name, and the load fails with `ERR_NONUMBER`. The stored contact is
shown for an array whose bytes were all NUL. -/
theorem parse_contacts_number_of_100 :
    (∀ contacts : Nat → contact_bytes,
      ∃ r, parse_contacts contacts
          ("A\n".toList ++ List.replicate 100 '1' ++ "\n".toList) MAX_CONTACT_COUNT = some r ∧
        r.ret = parse_err.ERR_NONUMBER.toInt) ∧
    parse_contacts zeroed_contacts
        ("A\n".toList ++ List.replicate 100 '1' ++ "\n".toList) MAX_CONTACT_COUNT =
      some ⟨parse_err.ERR_NONUMBER.toInt, [⟨"A".toList, List.replicate 100 '1'⟩]⟩ :=
  ⟨fun _ => ⟨_, rfl, rfl⟩, by decide⟩

set_option maxRecDepth 100000 in
/-- A name of 99 characters followed by its newline is stored in full. -/
theorem parse_contacts_name_of_99 :
    ∀ contacts : Nat → contact_bytes,
      parse_contacts contacts (List.replicate 99 'a' ++ "\n1\n".toList) MAX_CONTACT_COUNT =
        some ⟨1, [⟨List.replicate 99 'a', "1".toList⟩]⟩ :=
  fun _ => rfl

/-! ### What any line read holds -/

/-- A line read by `fgets` holds a newline at its end at most. -/
theorem fgets_read_shape (n : Nat) :
    ∀ s : List Char, ∃ body, '\n' ∉ body ∧
      ((fgets_read n s).1 = body ∨ (fgets_read n s).1 = body ++ ['\n']) := by
  induction n with
  | zero => intro s; exact ⟨[], by simp, Or.inl rfl⟩
  | succ n ih =>
    intro s
    cases s with
    | nil => exact ⟨[], by simp, Or.inl rfl⟩
    | cons c rest =>
      by_cases hc : c = '\n'
      · exact ⟨[], by simp, Or.inr (by simp [fgets_read, hc])⟩
      · obtain ⟨body, hb, h⟩ := ih rest
        refine ⟨c :: body, ?_, ?_⟩
        · simp only [List.mem_cons, not_or]
          exact ⟨fun e => hc e.symm, hb⟩
        · rcases h with h | h
          · exact Or.inl (by simp [fgets_read, hc, h])
          · exact Or.inr (by simp [fgets_read, hc, h])

theorem fgets_read_rest_le (n : Nat) :
    ∀ s : List Char, (fgets_read n s).2.length ≤ s.length := by
  induction n with
  | zero => intro s; simp [fgets_read]
  | succ n ih =>
    intro s
    cases s with
    | nil => simp [fgets_read]
    | cons c rest =>
      by_cases hc : c = '\n'
      · simp [fgets_read, hc]
      · have := ih rest
        simp only [fgets_read, hc, if_false, List.length_cons]
        omega

theorem fgets_read_rest_lt (n : Nat) (c : Char) (s : List Char) :
    (fgets_read (n + 1) (c :: s)).2.length ≤ s.length := by
  by_cases hc : c = '\n'
  · simp [fgets_read, hc]
  · simp only [fgets_read, hc, if_false]
    exact fgets_read_rest_le n s

theorem cstr_sublist (s : List Char) : (cstr s).Sublist s :=
  List.takeWhile_sublist _

theorem cstr_append_newline (body : List Char) (hb : '\n' ∉ body) :
    cstr (body ++ ['\n']) = body ++ ['\n'] ∨ '\n' ∉ cstr (body ++ ['\n']) := by
  induction body with
  | nil => exact Or.inl (by decide)
  | cons c body ih =>
    have hc : c ≠ '\n' := fun e => hb (e ▸ List.mem_cons_self _ _)
    have hbody : '\n' ∉ body := fun h => hb (List.mem_cons_of_mem _ h)
    by_cases hn : (c != NUL) = true
    · have e : cstr (c :: body ++ ['\n']) = c :: cstr (body ++ ['\n']) := by
        simp only [cstr, List.cons_append]
        rw [List.takeWhile_cons, hn, if_pos rfl]
      rcases ih hbody with h | h
      · exact Or.inl (by rw [e, h]; rfl)
      · refine Or.inr ?_
        rw [e]
        simp only [List.mem_cons, not_or]
        exact ⟨fun e => hc e.symm, h⟩
    · refine Or.inr ?_
      have e : cstr (c :: body ++ ['\n']) = [] := by
        simp only [cstr, List.cons_append]
        rw [List.takeWhile_cons, if_neg hn]
      rw [e]
      simp

theorem fgets_read_length_le (n : Nat) :
    ∀ s : List Char, (fgets_read n s).1.length ≤ n := by
  induction n with
  | zero => intro s; simp [fgets_read]
  | succ n ih =>
    intro s
    cases s with
    | nil => simp [fgets_read]
    | cons c rest =>
      by_cases hc : c = '\n'
      · simp [fgets_read, hc]
      · have := ih rest
        simp only [fgets_read, hc, if_false, List.length_cons]
        omega

theorem cstr_no_nul (s : List Char) : NUL ∉ cstr s := by
  intro h
  have := List.mem_takeWhile_imp h
  simp at this

/-- The name stored from a line in which `strchr` finds a newline is shorter
than 100 characters and holds no newline, whatever the field held before. -/
theorem stored_name_in_bounds (dest s : List Char)
    (h : ¬ (strchr (cstr (fgets_read MAX_VALUE_LENGTH s).1) '\n').isNone = true) :
    (cstr (strncpy dest (remove_newline (cstr (fgets_read MAX_VALUE_LENGTH s).1))
        MAX_VALUE_LENGTH)).length < MAX_VALUE_LENGTH ∧
    '\n' ∉ cstr (strncpy dest (remove_newline (cstr (fgets_read MAX_VALUE_LENGTH s).1))
        MAX_VALUE_LENGTH) := by
  have hmem : '\n' ∈ cstr (fgets_read MAX_VALUE_LENGTH s).1 := by
    by_contra hn
    exact h ((strchr_isNone_iff _ _).mpr hn)
  have hlen := fgets_read_length_le MAX_VALUE_LENGTH s
  obtain ⟨body, hb, hshape⟩ := fgets_read_shape MAX_VALUE_LENGTH s
  rcases hshape with hs | hs
  · rw [hs] at hmem
    exact absurd ((cstr_sublist body).subset hmem) hb
  · rw [hs] at hmem hlen
    rw [hs]
    rcases cstr_append_newline body hb with h2 | h2
    · have hnul : NUL ∉ body := by
        intro hm
        have := cstr_no_nul (body ++ ['\n'])
        rw [h2] at this
        exact this (List.mem_append_left _ hm)
      have hbl : body.length < MAX_VALUE_LENGTH := by
        simp only [List.length_append, List.length_singleton] at hlen
        omega
      rw [h2, remove_newline_append, cstr_strncpy dest body MAX_VALUE_LENGTH hnul hbl]
      exact ⟨hbl, hb⟩
    · exact absurd hmem h2

/-! ### The loop of `parse_contacts` on any stream -/

theorem parse_err_toInt_neg (e : parse_err) : ¬ 0 ≤ e.toInt := by
  cases e <;> decide

theorem parse_result_err_neg (e : parse_err) (stored : List contact) :
    ¬ 0 ≤ (parse_result.mk e.toInt stored).ret :=
  parse_err_toInt_neg e

theorem parse_contacts_loop_invariant (contacts : Nat → contact_bytes) (max : Nat) :
    ∀ (fuel i contact_count : Nat) (stored : List contact) (stdin : List Char),
      stdin.length < fuel → contact_count = i → i ≤ max → stored.length = contact_count →
      (∀ c ∈ stored, c.name.length < MAX_VALUE_LENGTH ∧ '\n' ∉ c.name) →
      ∃ r, parse_contacts_loop contacts max fuel i contact_count stored stdin = some r ∧
        (0 ≤ r.ret → r.ret ≤ (max : Int) ∧ (r.contacts.length : Int) = r.ret ∧
          ∀ c ∈ r.contacts, c.name.length < MAX_VALUE_LENGTH ∧ '\n' ∉ c.name) := by
  intro fuel
  induction fuel with
  | zero => intro i cc stored stdin h; omega
  | succ fuel ih =>
    intro i cc stored stdin hfuel hcc hi hlen hall
    cases stdin with
    | nil =>
      refine ⟨⟨cc, stored⟩, by simp [parse_contacts_loop, fgets], fun _ => ?_⟩
      refine ⟨?_, ?_, hall⟩
      · show (cc : Int) ≤ max
        omega
      · show (stored.length : Int) = cc
        omega
    | cons a rest =>
      simp only [parse_contacts_loop, fgets, Nat.add_sub_cancel]
      by_cases hmax : i ≥ max
      · rw [if_pos hmax]
        exact ⟨_, rfl, fun h => absurd h (parse_result_err_neg _ _)⟩
      · rw [if_neg hmax]
        by_cases hnl : (strchr (cstr (fgets_read MAX_VALUE_LENGTH (a :: rest)).1) '\n').isNone
            = true
        · rw [if_pos hnl]
          exact ⟨_, rfl, fun h => absurd h (parse_result_err_neg _ _)⟩
        · rw [if_neg hnl]
          have hrest : (fgets_read MAX_VALUE_LENGTH (a :: rest)).2.length ≤ rest.length :=
            fgets_read_rest_lt 99 a rest
          cases hst : (fgets_read MAX_VALUE_LENGTH (a :: rest)).2 with
          | nil => exact ⟨_, rfl, fun h => absurd h (parse_result_err_neg _ _)⟩
          | cons b rest2 =>
            simp only []
            rw [hst] at hrest
            simp only [List.length_cons] at hrest hfuel
            apply ih
            · have := fgets_read_rest_le MAX_VALUE_LENGTH (b :: rest2)
              simp only [List.length_cons] at this
              omega
            · omega
            · omega
            · simp [hlen]
            · intro c hc
              rcases List.mem_append.mp hc with h | h
              · exact hall c h
              · rw [List.mem_singleton] at h
                rw [h]
                exact stored_name_in_bounds _ _ hnl

/-- What holds of the store on every stream, whatever the array `contacts`
held before: `parse_contacts` returns, and if the value returned is a count
(not negative) then it is at most `max`, it is the number of contacts stored,
and each stored name is shorter than 100 characters and holds no newline.
Nothing of the kind holds of the stored phone numbers. -/
theorem parse_contacts_count_and_names (contacts : Nat → contact_bytes) (stdin : List Char)
    (max : Nat) :
    ∃ r, parse_contacts contacts stdin max = some r ∧
      (0 ≤ r.ret → r.ret ≤ (max : Int) ∧ (r.contacts.length : Int) = r.ret ∧
        ∀ c ∈ r.contacts, c.name.length < 100 ∧ '\n' ∉ c.name) :=
  parse_contacts_loop_invariant contacts max (stdin.length + 1) 0 0 [] stdin
    (Nat.lt_succ_self _) rfl (Nat.zero_le _) rfl (fun _ h => absurd h (List.not_mem_nil _))

set_option maxRecDepth 100000 in
/-- C10: the store invariant fails on a stream the loader accepts. On the name
line `U` followed by a number of exactly 100 characters and the end of the
stream, with an array that is not initialised and whose phone number bytes
happen to hold question marks, `parse_contacts` returns the count 1, yet the
phone number stored has more than 100 characters: `strncpy` wrote its 100
characters and no NUL, and the last byte of the field keeps what it held
before. -/
theorem parse_contacts_unterminated_number :
    parse_contacts stale_contacts ("U\n".toList ++ List.replicate 100 '0')
        MAX_CONTACT_COUNT =
      some ⟨1, [⟨"U".toList, List.replicate 100 '0' ++ "?".toList⟩]⟩ ∧
    ∃ r, parse_contacts stale_contacts ("U\n".toList ++ List.replicate 100 '0')
        MAX_CONTACT_COUNT = some r ∧ 0 ≤ r.ret ∧
      ∃ c ∈ r.contacts, 100 < c.phone_number.length := by
  decide

/-! ### A name line that is too long -/

theorem fgets_read_no_newline (n : Nat) :
    ∀ s : List Char, '\n' ∉ s.take n → (fgets_read n s).1 = s.take n := by
  induction n with
  | zero => intro s _; simp [fgets_read]
  | succ n ih =>
    intro s hs
    cases s with
    | nil => simp [fgets_read]
    | cons c rest =>
      simp only [List.take_succ_cons, List.mem_cons, not_or] at hs
      have hc : c ≠ '\n' := fun e => hs.1 e.symm
      simp [fgets_read, hc, ih rest hs.2]

/-- The name half of the line-length check: after fewer than `max` well-formed
pairs, a name line whose first 100 characters hold no newline makes
`parse_contacts` fail with `ERR_TOOLONG`. -/
theorem parse_contacts_long_name_line (contacts : Nat → contact_bytes) (max : Nat)
    (ps : List contact) (tail : List Char)
    (hlen : ps.length < max) (hv : ∀ c ∈ ps, valid_pair c)
    (hlong : MAX_VALUE_LENGTH ≤ tail.length) (hnl : '\n' ∉ tail.take MAX_VALUE_LENGTH) :
    parse_contacts contacts (stream_of_pairs ps ++ tail) max =
      some ⟨parse_err.ERR_TOOLONG.toInt, ps⟩ := by
  obtain ⟨fuel, h⟩ := parse_contacts_pairs contacts max ps tail hv (Nat.le_of_lt hlen)
  have hnot : ¬ ps.length ≥ max := Nat.not_le.mpr hlen
  rw [h]
  cases tail with
  | nil => simp [MAX_VALUE_LENGTH] at hlong
  | cons a rest =>
    have hline := fgets_read_no_newline MAX_VALUE_LENGTH (a :: rest) hnl
    have hnone : (strchr (cstr (fgets_read MAX_VALUE_LENGTH (a :: rest)).1) '\n').isNone
        = true := by
      rw [strchr_isNone_iff, hline]
      exact fun hx => hnl ((cstr_sublist _).subset hx)
    simp only [parse_contacts_loop, fgets, Nat.add_sub_cancel, if_neg hnot, hnone, if_true]

/-! ### replace_plus -/

theorem strchr_append_cons (pre post : List Char) (c : Char) (h : c ∉ pre) :
    strchr (pre ++ c :: post) c = some pre.length := by
  induction pre with
  | nil => simp [strchr]
  | cons x pre ih =>
    have hx : ¬ x = c := fun e => h (e ▸ List.mem_cons_self _ _)
    have hp : c ∉ pre := fun hm => h (List.mem_cons_of_mem _ hm)
    simp [strchr, hx, ih hp]

theorem set_append_cons (pre post : List Char) (a b : Char) :
    (pre ++ a :: post).set pre.length b = pre ++ b :: post := by
  induction pre with
  | nil => rfl
  | cons x pre ih => simp [List.set, ih]

theorem replace_plus_length (N : List Char) : (replace_plus N).length = N.length := by
  simp only [replace_plus]
  cases strchr N '+' with
  | none => rfl
  | some plus => simp

/-- C11: for every string `N`, `replace_plus` produces a string of the same
length; a string without a plus is returned unchanged; and when `N` is
`pre`, a plus, `post` with no plus in `pre` (so that this plus is the first
one), the result is `pre`, a zero, `post`: only the first plus is replaced
and every other character, any later plus included, is unchanged. -/
theorem replace_plus_first_plus (N : List Char) :
    (replace_plus N).length = N.length ∧
    ('+' ∉ N → replace_plus N = N) ∧
    (∀ pre post : List Char, '+' ∉ pre → N = pre ++ '+' :: post →
      replace_plus N = pre ++ '0' :: post) := by
  refine ⟨replace_plus_length N, fun h => ?_, fun pre post hpre hN => ?_⟩
  · have hnone : strchr N '+' = none := by
      have := (strchr_isNone_iff N '+').mpr h
      cases hs : strchr N '+' with
      | none => rfl
      | some k => rw [hs] at this; simp at this
    simp only [replace_plus, hnone]
  · subst hN
    simp only [replace_plus, strchr_append_cons pre post '+' hpre]
    exact set_append_cons pre post '+' '0'

theorem replace_plus_first_plus_witness :
    replace_plus "00+420+1".toList = "000420+1".toList ∧
    replace_plus "123".toList = "123".toList :=
  ⟨(replace_plus_first_plus "00+420+1".toList).2.2 "00".toList "420+1".toList
      (by decide) (by decide),
   (replace_plus_first_plus "123".toList).2.1 (by decide)⟩

/-! ### Properties of the encoding -/

/-- C12: the encoding is length-preserving: for every string `S`,
`str_to_tnine` writes exactly `strlen(S)` characters. -/
theorem str_to_tnine_length_preserving (S : List Char) :
    (str_to_tnine S).length = S.length :=
  str_to_tnine_length S

set_option maxRecDepth 100000 in
theorem str_to_tnine_char_idempotent_ascii :
    ∀ n : Fin 128, isdigit (Char.ofNat n.val) = true ∨ Char.ofNat n.val = 'X' →
      str_to_tnine_char (str_to_tnine_char (Char.ofNat n.val)) =
        str_to_tnine_char (Char.ofNat n.val) := by
  decide

theorem str_to_tnine_char_idempotent (c : Char) (h : isdigit c = true ∨ c = 'X') :
    str_to_tnine_char (str_to_tnine_char c) = str_to_tnine_char c := by
  have hc : c.toNat < 128 := by
    rcases h with h | h
    · simp only [isdigit, decide_eq_true_eq] at h; omega
    · rw [h]; decide
  obtain ⟨n, rfl⟩ := char_eq_ofNat_fin c hc
  exact str_to_tnine_char_idempotent_ascii n h

/-- C13: the encoding is idempotent on digit/X strings: for every string `S`
holding only the characters 0 to 9 and X, encoding the encoding of `S` gives
the encoding of `S`. -/
theorem str_to_tnine_idempotent (S : List Char)
    (hS : ∀ c ∈ S, isdigit c = true ∨ c = 'X') :
    str_to_tnine (str_to_tnine S) = str_to_tnine S := by
  induction S with
  | nil => rfl
  | cons c rest ih =>
    have hc := hS c (List.mem_cons_self _ _)
    have hrest : ∀ d ∈ rest, isdigit d = true ∨ d = 'X' :=
      fun d hd => hS d (List.mem_cons_of_mem _ hd)
    simp only [str_to_tnine, str_to_tnine_char_idempotent c hc, ih hrest]

theorem str_to_tnine_idempotent_witness :
    str_to_tnine (str_to_tnine "60X1X9".toList) = str_to_tnine "60X1X9".toList ∧
    str_to_tnine "60X1X9".toList = "609199".toList :=
  ⟨str_to_tnine_idempotent "60X1X9".toList (by decide), by decide⟩

set_option maxRecDepth 100000 in
theorem str_to_tnine_char_upper_ascii :
    ∀ n : Fin 128, is_ascii_letter (Char.ofNat n.val) = true →
      str_to_tnine_char (Char.ofNat n.val) =
        str_to_tnine_char (upper_of_letter (Char.ofNat n.val)) := by
  decide

theorem is_ascii_letter_lt (c : Char) (h : is_ascii_letter c = true) : c.toNat < 128 := by
  simp only [is_ascii_letter, Bool.or_eq_true, List.contains_eq_any_beq, List.any_eq_true,
    beq_iff_eq] at h
  have hu : ∀ x ∈ ascii_upper_letters, x.toNat < 128 := by decide
  have hl : ∀ x ∈ ascii_lower_letters, x.toNat < 128 := by decide
  rcases h with ⟨x, hx, hxc⟩ | ⟨x, hx, hxc⟩
  · exact hxc ▸ hu x hx
  · exact hxc ▸ hl x hx

/-- C14: the encoding is case-insensitive: for every string `S` of ASCII
letters, the encoding of `S` equals the encoding of `S` in upper case. -/
theorem str_to_tnine_case_insensitive (S : List Char)
    (hS : ∀ c ∈ S, is_ascii_letter c = true) :
    str_to_tnine S = str_to_tnine (uppercase S) := by
  induction S with
  | nil => rfl
  | cons c rest ih =>
    have hc := hS c (List.mem_cons_self _ _)
    have hrest : ∀ d ∈ rest, is_ascii_letter d = true :=
      fun d hd => hS d (List.mem_cons_of_mem _ hd)
    obtain ⟨n, hn⟩ := char_eq_ofNat_fin c (is_ascii_letter_lt c hc)
    have h1 : str_to_tnine_char c = str_to_tnine_char (upper_of_letter c) := by
      rw [hn] at hc ⊢
      exact str_to_tnine_char_upper_ascii n hc
    have ih2 := ih hrest
    simp only [uppercase] at ih2
    simp only [uppercase, List.map_cons, str_to_tnine, ← h1, ← ih2]

theorem str_to_tnine_case_insensitive_witness :
    uppercase "vHavel".toList = "VHAVEL".toList ∧
    str_to_tnine "vHavel".toList = str_to_tnine (uppercase "vHavel".toList) :=
  ⟨by decide, str_to_tnine_case_insensitive "vHavel".toList (by decide)⟩

/-- C15: concrete vector: `str_to_tnine` applied to `V. Havel` yields exactly
`8XX42835`. -/
theorem str_to_tnine_v_havel : str_to_tnine "V. Havel".toList = "8XX42835".toList := by
  decide

/-! ### Searching -/

/-- C16, as stated, fails: with the store of Ann and Bob and the query `266`
under the strict policy, `search_contacts` does not write Bob's line only,
and the encoding of `Bob` is not `266`. -/
theorem strict_266_does_not_list_bob :
    search_contacts [⟨"Ann".toList, "+123456".toList⟩, ⟨"Bob".toList, "+199000".toList⟩] 2
        "266".toList false ≠ ["Bob, +199000".toList] ∧
    str_to_tnine "Bob".toList ≠ "266".toList := by
  decide

/-- C16, amended: with the store of Ann and Bob and the query `266` under the
strict policy, `search_contacts` writes Ann's line only, because the
encoding of `Ann` is `266` while the encoding of `Bob` is `262`; the whole
program run with the argument `266` on that store writes the same line,
whatever its array `contacts` held before. -/
theorem search_contacts_ann_bob :
    search_contacts [⟨"Ann".toList, "+123456".toList⟩, ⟨"Bob".toList, "+199000".toList⟩] 2
        "266".toList false = ["Ann, +123456".toList] ∧
    str_to_tnine "Ann".toList = "266".toList ∧
    str_to_tnine "Bob".toList = "262".toList ∧
    ∀ contacts : Nat → contact_bytes,
      main contacts ["tnine".toList, "266".toList] "Ann\n+123456\nBob\n+199000\n".toList =
        some ⟨["Ann, +123456".toList], [], OK⟩ :=
  ⟨by decide, by decide, by decide, fun _ => rfl⟩

theorem contains_in_order_nil (F : List Char) (hF : NUL ∉ F) :
    contains_in_order F [] = true := by
  have h := (contains_in_order_loop_spec [] F 0 hF (Nat.zero_le _)).mpr (by simp)
  simp [contains_in_order, h]

theorem strstr_nil (haystack : List Char) : (strstr haystack []).isSome = true :=
  (strstr_isSome_iff haystack []).mpr List.nil_infix

/-- C17: an empty query matches everything: for every contact and under both
policies `contact_matches` with the empty query returns true, and for every
field `F` (a well-formed string, holding no NUL) `contains_in_order(F, "")`
is true. -/
theorem empty_query_matches :
    (∀ (c : contact) (nonstrict : Bool), contact_matches c [] nonstrict = true) ∧
    (∀ F : List Char, NUL ∉ F → contains_in_order F [] = true) := by
  refine ⟨fun c nonstrict => ?_, contains_in_order_nil⟩
  cases nonstrict with
  | true =>
    simp only [contact_matches, if_true, contains_in_order_nil _ (str_to_tnine_no_nul c.name)]
    split <;> rfl
  | false =>
    simp only [contact_matches, Bool.false_eq_true, if_false, strstr_nil, if_true]

theorem empty_query_matches_witness :
    contact_matches ⟨"Bob".toList, "+199000".toList⟩ [] true = true ∧
    contact_matches ⟨"Bob".toList, "+199000".toList⟩ [] false = true ∧
    NUL ∉ "262".toList ∧ contains_in_order "262".toList [] = true :=
  ⟨empty_query_matches.1 _ true, empty_query_matches.1 _ false, by decide,
    empty_query_matches.2 "262".toList (by decide)⟩

theorem contact_matches_strict_nonstrict (c : contact) (query : List Char)
    (hp : NUL ∉ c.phone_number) (h : contact_matches c query false = true) :
    contact_matches c query true = true := by
  have hq : ∀ F, NUL ∉ F → query <:+: F → contains_in_order F query = true := by
    intro F hF hin
    have h := (contains_in_order_loop_spec query F 0 hF (Nat.zero_le _)).mpr
      (by simpa using hin.sublist)
    simp [contains_in_order, h]
  simp only [contact_matches, Bool.false_eq_true, if_false] at h
  simp only [contact_matches, if_true]
  by_cases h1 : (strstr (replace_plus c.phone_number) query).isSome = true
  · rw [hq _ (replace_plus_no_nul _ hp) ((strstr_isSome_iff _ _).mp h1)]
    rfl
  · rw [if_neg h1] at h
    by_cases h2 : (strstr (str_to_tnine c.name) query).isSome = true
    · rw [hq _ (str_to_tnine_no_nul _) ((strstr_isSome_iff _ _).mp h2)]
      split <;> rfl
    · rw [if_neg h2] at h
      exact absurd h (by decide)

theorem filter_strict_sublist (query : List Char) :
    ∀ l : List contact, (∀ c ∈ l, NUL ∉ c.phone_number) →
      (l.filter (fun c => contact_matches c query false)).Sublist
        (l.filter (fun c => contact_matches c query true)) := by
  intro l
  induction l with
  | nil => intro _; simp
  | cons c rest ih =>
    intro hl
    have hc := hl c (List.mem_cons_self _ _)
    have hrest := ih (fun d hd => hl d (List.mem_cons_of_mem _ hd))
    cases hs : contact_matches c query false with
    | true =>
      have hn := contact_matches_strict_nonstrict c query hc hs
      simp only [List.filter_cons, hs, hn, if_true]
      exact List.Sublist.cons₂ _ hrest
    | false =>
      cases hn : contact_matches c query true with
      | true =>
        simp only [List.filter_cons, hs, hn, if_true, Bool.false_eq_true, if_false]
        exact List.Sublist.cons _ hrest
      | false =>
        simp only [List.filter_cons, hs, hn, Bool.false_eq_true, if_false]
        exact hrest

/-- C18: strict matching refines non-strict matching. For every contact
(whose phone number is a well-formed string, holding no NUL) and every
query, if `contact_matches` returns true with `nonstrict = false` then it
returns true with `nonstrict = true`; hence for every store the contact
lines written by a strict search are a sub-list of those written by a
non-strict search with the same query. -/
theorem strict_refines_nonstrict (contacts : List contact) (count : Nat) (query : List Char)
    (hstore : ∀ c ∈ contacts, NUL ∉ c.phone_number) :
    (∀ c ∈ contacts, contact_matches c query false = true →
      contact_matches c query true = true) ∧
    (search_contacts_loop query false (contacts.take count) false []).2.Sublist
      (search_contacts_loop query true (contacts.take count) false []).2 := by
  refine ⟨fun c hc h => contact_matches_strict_nonstrict c query (hstore c hc) h, ?_⟩
  rw [search_contacts_loop_eq, search_contacts_loop_eq]
  simp only [List.nil_append]
  exact (filter_strict_sublist query _
    (fun c hc => hstore c (List.mem_of_mem_take hc))).map contact_line

theorem strict_refines_nonstrict_witness :
    (search_contacts_loop "26".toList false
        [⟨"Ann".toList, "+123456".toList⟩, ⟨"Bob".toList, "+199000".toList⟩,
          ⟨"Cal".toList, "+206".toList⟩] false []).2 =
      ["Ann, +123456".toList, "Bob, +199000".toList] ∧
    (search_contacts_loop "26".toList true
        [⟨"Ann".toList, "+123456".toList⟩, ⟨"Bob".toList, "+199000".toList⟩,
          ⟨"Cal".toList, "+206".toList⟩] false []).2 =
      ["Ann, +123456".toList, "Bob, +199000".toList, "Cal, +206".toList] ∧
    (search_contacts_loop "26".toList false
        ([⟨"Ann".toList, "+123456".toList⟩, ⟨"Bob".toList, "+199000".toList⟩,
          ⟨"Cal".toList, "+206".toList⟩].take 3) false []).2.Sublist
      (search_contacts_loop "26".toList true
        ([⟨"Ann".toList, "+123456".toList⟩, ⟨"Bob".toList, "+199000".toList⟩,
          ⟨"Cal".toList, "+206".toList⟩].take 3) false []).2 :=
  ⟨by decide, by decide,
    (strict_refines_nonstrict [⟨"Ann".toList, "+123456".toList⟩,
      ⟨"Bob".toList, "+199000".toList⟩, ⟨"Cal".toList, "+206".toList⟩] 3 "26".toList
      (by decide)).2⟩

/-! ### The end of the stream and the contact limit -/

/-- After fewer than `max` well-formed pairs, input that is left and holds no
newline within its first 100 characters makes `parse_contacts` fail with
`ERR_TOOLONG`. -/
theorem parse_contacts_line_without_newline (contacts : Nat → contact_bytes) (max : Nat)
    (ps : List contact) (tail : List Char)
    (hlen : ps.length < max) (hv : ∀ c ∈ ps, valid_pair c)
    (hne : tail ≠ []) (hnl : '\n' ∉ tail.take MAX_VALUE_LENGTH) :
    parse_contacts contacts (stream_of_pairs ps ++ tail) max =
      some ⟨parse_err.ERR_TOOLONG.toInt, ps⟩ := by
  obtain ⟨fuel, h⟩ := parse_contacts_pairs contacts max ps tail hv (Nat.le_of_lt hlen)
  have hnot : ¬ ps.length ≥ max := Nat.not_le.mpr hlen
  rw [h]
  cases tail with
  | nil => exact absurd rfl hne
  | cons a rest =>
    have hline := fgets_read_no_newline MAX_VALUE_LENGTH (a :: rest) hnl
    have hnone : (strchr (cstr (fgets_read MAX_VALUE_LENGTH (a :: rest)).1) '\n').isNone
        = true := by
      rw [strchr_isNone_iff, hline]
      exact fun hx => hnl ((cstr_sublist _).subset hx)
    simp only [parse_contacts_loop, fgets, Nat.add_sub_cancel, if_neg hnot, hnone, if_true]

/-- C19: a final name line that lacks a line terminator is reported as too
long whatever its length: for every stream of fewer than `max` well-formed
pairs followed by a non-empty name of fewer than 100 characters without a
newline and then the end of the stream, `parse_contacts` fails with
`ERR_TOOLONG`, not `ERR_NONUMBER`, whatever the array `contacts` held
before. -/
theorem parse_contacts_unterminated_name (contacts : Nat → contact_bytes) (max : Nat)
    (ps : List contact) (name : List Char)
    (hlen : ps.length < max) (hv : ∀ c ∈ ps, valid_pair c)
    (hne : name ≠ []) (_hshort : name.length < 100) (hnl : '\n' ∉ name) :
    ∃ r, parse_contacts contacts (stream_of_pairs ps ++ name) max = some r ∧
      r.ret = parse_err.ERR_TOOLONG.toInt ∧ r.ret ≠ parse_err.ERR_NONUMBER.toInt := by
  have hdiff : parse_err.ERR_TOOLONG.toInt ≠ parse_err.ERR_NONUMBER.toInt := by decide
  refine ⟨⟨parse_err.ERR_TOOLONG.toInt, ps⟩, ?_, rfl, hdiff⟩
  exact parse_contacts_line_without_newline contacts max ps name hlen hv hne
    (fun hx => hnl (List.mem_of_mem_take hx))

theorem parse_contacts_unterminated_name_witness :
    ∃ r, parse_contacts stale_contacts "Ann\n+123456\nBob".toList 42 = some r ∧
      r.ret = -2 ∧ r.ret ≠ -3 :=
  parse_contacts_unterminated_name stale_contacts 42 [⟨"Ann".toList, "+123456".toList⟩] "Bob".toList
    (by decide) (by decide) (by decide) (by decide) (by decide)

/-- C20: the contact-limit check takes precedence over every other load
error: for every stream of exactly `max` well-formed newline-terminated pairs
followed by at least one more character, `parse_contacts` fails with
`ERR_CONTACT_LIMIT`, whatever follows (a lone name with no number, an
unterminated line, a line longer than 100 characters) and whatever the array
`contacts` held before. -/
theorem parse_contacts_limit_first (contacts : Nat → contact_bytes) (max : Nat)
    (ps : List contact) (tail : List Char)
    (hlen : ps.length = max) (hv : ∀ c ∈ ps, valid_pair c) (hne : tail ≠ []) :
    ∃ r, parse_contacts contacts (stream_of_pairs ps ++ tail) max = some r ∧
      r.ret = parse_err.ERR_CONTACT_LIMIT.toInt := by
  obtain ⟨fuel, h⟩ := parse_contacts_pairs contacts max ps tail hv (Nat.le_of_eq hlen)
  refine ⟨⟨parse_err.ERR_CONTACT_LIMIT.toInt, ps⟩, ?_, rfl⟩
  rw [h]
  exact parse_contacts_loop_limit contacts max fuel ps.length ps.length ps tail hne
    (Nat.le_of_eq hlen.symm)

set_option maxRecDepth 100000 in
theorem parse_contacts_limit_first_witness :
    (∃ r, parse_contacts stale_contacts "Ann\n+123456\nBob\n".toList 1 = some r ∧
      r.ret = -1) ∧
    (∃ r, parse_contacts stale_contacts "Ann\n+123456\nBob".toList 1 = some r ∧
      r.ret = -1) ∧
    (∃ r, parse_contacts stale_contacts
        ("Ann\n+123456\n".toList ++ List.replicate 150 'b') 1 = some r ∧
      r.ret = -1) :=
  ⟨parse_contacts_limit_first stale_contacts 1 [⟨"Ann".toList, "+123456".toList⟩]
      "Bob\n".toList (by decide) (by decide) (by decide),
   parse_contacts_limit_first stale_contacts 1 [⟨"Ann".toList, "+123456".toList⟩]
      "Bob".toList (by decide) (by decide) (by decide),
   parse_contacts_limit_first stale_contacts 1 [⟨"Ann".toList, "+123456".toList⟩]
      (List.replicate 150 'b')
      (by decide) (by decide) (by decide)⟩

end Tnine
